import Mathlib

/-!
Verification of the pubcrypt-rs core against its specification.

The repository implements an ElGamal-style public-key cryptosystem:
  - `math/src/lib.rs`: modular exponentiation (`mod_exp`) over `Num = u64`,
    with intermediate products computed in `BigNum = u128`;
  - `math/src/primes/mod.rs`: a Miller-Rabin witness test, random-prime
    search with an analytic density oracle, and primitive-root lookup;
  - `src/crypt/mod.rs`: key pairs and block encryption/decryption, with
    plaintext blocks of type `Block = u32`;
  - `src/main.rs`: the ECB driver chunking byte streams into blocks.

Machine integers are embedded as `Nat`.  Where the Rust code can overflow
or wrap, the wrap is written out explicitly (`% 2 ^ 64`); where it cannot
(the `u128` intermediates never exceed `2 ^ 128` for reduced operands),
plain `Nat` arithmetic coincides with the source semantics.  A Rust
`assert!`/`unimplemented!` panic is modelled as `Option.none` (or a
dedicated `crash` outcome), and randomness is modelled by explicitly
passed streams of draws, matching the repository's pattern of threading
an `Rng` handle through every function that needs entropy.
-/

set_option maxRecDepth 8192

/-- `u64::MAX`. -/
def numMax : Nat := 2 ^ 64 - 1

/-- `Block::MAX` for `Block = u32`. -/
def blockMax : Nat := 2 ^ 32 - 1

/-- `u64::saturating_add`, used by the sentinel assertion in `mod_exp`. -/
def satAdd (a b : Nat) : Nat := min (a + b) numMax

/-- Shortcut branches of `mod_exp`, from `get_mod_exp_optimization` in
`math/src/lib.rs` lines 18-53.  The branch order matches the source:
`exponent == 0`, then `base == 0 || base == modulus || modulus == 1`,
then `base == 1 || modulus == 2`. -/
def get_mod_exp_optimization (base exponent modulus : Nat) : Option Nat :=
  if exponent = 0 then
    some (1 % modulus)
  else if base = 0 ∨ base = modulus ∨ modulus = 1 then
    some 0
  else if base = 1 ∨ modulus = 2 then
    some (base % modulus)
  else
    none

/-- The square-and-multiply loop of `mod_exp` (`math/src/lib.rs` lines
68-83).  The source iterates `mask` from bit 63 down to bit 0; here the
argument `k` counts the remaining iterations, so the step with counter
`k + 1` processes bit `k` of the exponent (`exponent & mask != 0` is
`Nat.testBit exponent k`).  Squares and products are reduced modulo
`modulus` exactly as in the source; the `u128` intermediates cannot
overflow for `modulus < 2 ^ 64`, so `Nat` arithmetic is faithful. -/
def modExpLoop (base exponent modulus : Nat) : Nat → Nat → Nat
  | result, 0 => result
  | result, k + 1 =>
    let r := result ^ 2 % modulus
    let r2 := if Nat.testBit exponent k then r * base % modulus else r
    modExpLoop base exponent modulus r2 k

/-- `mod_exp` from `math/src/lib.rs` lines 58-84, minus its two
assertions (which are captured by `mod_exp_checked` below): reduce the
base, try the shortcut branches, otherwise run the 64-iteration
square-and-multiply loop starting from `result = 1`. -/
def mod_exp (base exponent modulus : Nat) : Nat :=
  match get_mod_exp_optimization (base % modulus) exponent modulus with
  | some val => val
  | none => modExpLoop (base % modulus) exponent modulus 1 64

/-- The assertions at the top of `mod_exp`: `assert!(modulus > 0)` and
`assert_ne!(base.saturating_add(exponent), 0)`. -/
def mod_exp_pre (base exponent modulus : Nat) : Prop :=
  0 < modulus ∧ satAdd base exponent ≠ 0

instance (base exponent modulus : Nat) :
    Decidable (mod_exp_pre base exponent modulus) := by
  unfold mod_exp_pre
  infer_instance

/-- `mod_exp` including its assertions: `none` models the panic. -/
def mod_exp_checked (base exponent modulus : Nat) : Option Nat :=
  if mod_exp_pre base exponent modulus then
    some (mod_exp base exponent modulus)
  else
    none

lemma satAdd_ne_zero_iff (a b : Nat) : satAdd a b ≠ 0 ↔ ¬(a = 0 ∧ b = 0) := by
  unfold satAdd numMax
  omega

/-- One low-order slice of the exponent: bit `k` joins the remainder
modulo `2 ^ k` to form the remainder modulo `2 ^ (k + 1)`. -/
lemma mod_pow_succ_testBit (e k : Nat) :
    e % 2 ^ (k + 1) = (if Nat.testBit e k then 2 ^ k else 0) + e % 2 ^ k := by
  have h1 : e % 2 ^ (k + 1) % 2 ^ k = e % 2 ^ k := by
    apply Nat.mod_mod_of_dvd
    exact pow_dvd_pow 2 (Nat.le_succ k)
  have h2 : e % 2 ^ (k + 1) / 2 ^ k = e / 2 ^ k % 2 := by
    have hpow : (2 : Nat) ^ (k + 1) = 2 ^ k * 2 := by ring
    rw [hpow]
    exact Nat.mod_mul_right_div_self e (2 ^ k) 2
  have h3 := Nat.div_add_mod (e % 2 ^ (k + 1)) (2 ^ k)
  rw [h1, h2] at h3
  rw [Nat.testBit_to_div_mod]
  rcases Nat.mod_two_eq_zero_or_one (e / 2 ^ k) with h | h <;>
    rw [h] at h3 <;> simp [h] <;> omega

/-- Invariant of the square-and-multiply loop: if the accumulator is
congruent to `base ^ x`, then after consuming the low `k` bits of the
exponent it is congruent to `base ^ (x * 2 ^ k + exponent % 2 ^ k)`. -/
lemma modExpLoop_mod (base exponent modulus : Nat) :
    ∀ k result x, result % modulus = base ^ x % modulus →
      modExpLoop base exponent modulus result k % modulus =
        base ^ (x * 2 ^ k + exponent % 2 ^ k) % modulus := by
  intro k
  induction k with
  | zero =>
    intro result x h
    simpa [modExpLoop, Nat.mod_one] using h
  | succ k ih =>
    intro result x h
    have hsq : result ^ 2 % modulus % modulus = base ^ (2 * x) % modulus := by
      rw [Nat.mod_mod_of_dvd _ dvd_rfl]
      calc result ^ 2 % modulus = (result % modulus) ^ 2 % modulus :=
            Nat.pow_mod result 2 modulus
        _ = (base ^ x % modulus) ^ 2 % modulus := by rw [h]
        _ = (base ^ x) ^ 2 % modulus := by rw [← Nat.pow_mod]
        _ = base ^ (2 * x) % modulus := by rw [← pow_mul, mul_comm x 2]
    cases ht : Nat.testBit exponent k with
    | false =>
      have hbit := mod_pow_succ_testBit exponent k
      rw [ht] at hbit
      simp at hbit
      have step : modExpLoop base exponent modulus result (k + 1) =
          modExpLoop base exponent modulus (result ^ 2 % modulus) k := by
        simp [modExpLoop, ht]
      have := ih (result ^ 2 % modulus) (2 * x) hsq
      rw [step, this, hbit]
      congr 2
      rw [pow_succ]
      ring
    | true =>
      have hmul : result ^ 2 % modulus * base % modulus =
          base ^ (2 * x + 1) % modulus := by
        calc result ^ 2 % modulus * base % modulus
            = result ^ 2 % modulus % modulus * (base % modulus) % modulus :=
              Nat.mul_mod _ base modulus
          _ = base ^ (2 * x) % modulus * (base % modulus) % modulus := by
              rw [hsq]
          _ = base ^ (2 * x) * base % modulus := by rw [← Nat.mul_mod]
          _ = base ^ (2 * x + 1) % modulus := by rw [← pow_succ]
      have hmul' : result ^ 2 % modulus * base % modulus % modulus =
          base ^ (2 * x + 1) % modulus := by
        rw [Nat.mod_mod_of_dvd _ dvd_rfl, hmul]
      have step : modExpLoop base exponent modulus result (k + 1) =
          modExpLoop base exponent modulus
            (result ^ 2 % modulus * base % modulus) k := by
        simp [modExpLoop, ht]
      have hbit := mod_pow_succ_testBit exponent k
      rw [ht] at hbit
      simp at hbit
      have := ih (result ^ 2 % modulus * base % modulus) (2 * x + 1) hmul'
      rw [step, this, hbit]
      congr 2
      rw [pow_succ]
      ring

/-- After at least one iteration the loop accumulator has been reduced
modulo `modulus`, so it is strictly below it. -/
lemma modExpLoop_lt (base exponent modulus : Nat) (hm : 0 < modulus) :
    ∀ k result, 0 < k → modExpLoop base exponent modulus result k < modulus := by
  intro k
  induction k with
  | zero => intro result h; omega
  | succ k ih =>
    intro result _
    rcases Nat.eq_zero_or_pos k with hk | hk
    · subst hk
      cases ht : Nat.testBit exponent 0 with
      | false => simpa [modExpLoop, ht] using Nat.mod_lt _ hm
      | true => simpa [modExpLoop, ht] using Nat.mod_lt _ hm
    · cases ht : Nat.testBit exponent k with
      | false =>
        have step : modExpLoop base exponent modulus result (k + 1) =
            modExpLoop base exponent modulus (result ^ 2 % modulus) k := by
          simp [modExpLoop, ht]
        rw [step]; exact ih _ hk
      | true =>
        have step : modExpLoop base exponent modulus result (k + 1) =
            modExpLoop base exponent modulus
              (result ^ 2 % modulus * base % modulus) k := by
          simp [modExpLoop, ht]
        rw [step]; exact ih _ hk

/-- `mod_exp` rewritten as a chain of conditionals, for case analysis. -/
lemma mod_exp_eq_branches (base exponent modulus : Nat) :
    mod_exp base exponent modulus =
      if exponent = 0 then 1 % modulus
      else if base % modulus = 0 ∨ base % modulus = modulus ∨ modulus = 1 then 0
      else if base % modulus = 1 ∨ modulus = 2 then base % modulus % modulus
      else modExpLoop (base % modulus) exponent modulus 1 64 := by
  unfold mod_exp get_mod_exp_optimization
  split_ifs <;> rfl

/-- Functional correctness of `mod_exp`: for a positive modulus and an
exponent in `u64` range, the function computes `base ^ exponent` reduced
modulo `modulus` (through whichever shortcut branch or the loop). -/
lemma mod_exp_correct (base exponent modulus : Nat) (hm : 0 < modulus)
    (he : exponent < 2 ^ 64) :
    mod_exp base exponent modulus = base ^ exponent % modulus := by
  have hb : base % modulus < modulus := Nat.mod_lt _ hm
  have hbase : base ^ exponent % modulus = (base % modulus) ^ exponent % modulus :=
    Nat.pow_mod base exponent modulus
  rw [hbase, mod_exp_eq_branches]
  split_ifs with h0 h1 h2
  · subst h0; simp
  · rcases h1 with h1 | h1 | h1
    · rw [h1, zero_pow h0, Nat.zero_mod]
    · omega
    · subst h1; simp [Nat.mod_one]
  · rcases h2 with h2 | h2
    · rw [h2, one_pow]
    · have hb1 : base % modulus = 1 := by
        push_neg at h1
        omega
      rw [hb1, one_pow]
  · have hone : (1 : Nat) % modulus = (base % modulus) ^ 0 % modulus := by simp
    have hmain := modExpLoop_mod (base % modulus) exponent modulus 64 1 0 hone
    have hlt := modExpLoop_lt (base % modulus) exponent modulus hm 64 1
      (by norm_num)
    rw [Nat.mod_eq_of_lt hlt] at hmain
    rw [hmain, Nat.zero_mul, Nat.zero_add, Nat.mod_eq_of_lt he]

/-- `mod_exp` returns a value strictly below a positive modulus. -/
lemma mod_exp_lt (base exponent modulus : Nat) (hm : 0 < modulus) :
    mod_exp base exponent modulus < modulus := by
  rw [mod_exp_eq_branches]
  split_ifs
  · exact Nat.mod_lt _ hm
  · exact hm
  · exact Nat.mod_lt _ hm
  · exact modExpLoop_lt _ _ _ hm 64 1 (by norm_num)

/-- C2 sanity checks from the spec's test vector list. -/
example : mod_exp 1 1 1 = 0 := by decide
example : mod_exp 16 4 13 = 3 := by decide
example : mod_exp 23 20 29 = 24 := by decide
example : mod_exp 23 391 55 = 12 := by decide

/-- C2: for all `base`, `exponent`, `modulus` in `u64` range satisfying the
two assertions (`modulus > 0` and `base.saturating_add(exponent) != 0`),
`mod_exp` returns `base ^ exponent` reduced modulo `modulus`, whichever
shortcut branch or the 64-iteration square-and-multiply loop computes it. -/
theorem mod_exp_meets_contract (base exponent modulus : Nat)
    (hb64 : base < 2 ^ 64) (he64 : exponent < 2 ^ 64) (hm64 : modulus < 2 ^ 64)
    (hm : 0 < modulus) (hsat : satAdd base exponent ≠ 0) :
    mod_exp_checked base exponent modulus = some (base ^ exponent % modulus) := by
  unfold mod_exp_checked
  rw [if_pos ⟨hm, hsat⟩, mod_exp_correct base exponent modulus hm he64]

theorem mod_exp_meets_contract_witness :
    mod_exp_checked 16 4 13 = some (16 ^ 4 % 13) :=
  mod_exp_meets_contract 16 4 13 (by norm_num) (by norm_num) (by norm_num)
    (by norm_num) (by decide)

/-- C7 counterexample: at `exponent = 0` the claimed zero result does not
happen; the sentinel assertion `base.saturating_add(exponent) != 0` fails
(modelled by `none`), so `mod_exp(0, 0, 5)` panics instead of returning 0. -/
theorem mod_exp_zero_base_cex :
    mod_exp_checked 0 0 5 = none ∧ mod_exp_checked 0 0 5 ≠ some 0 := by
  constructor
  · decide
  · decide

/-- C7 amended: for every exponent at least 1 and modulus greater than 1,
`mod_exp(0, exponent, modulus)` returns 0 (the `base == 0` shortcut). At
`exponent = 0` the assertion `base.saturating_add(exponent) != 0` fails
instead, so the original claim's `exponent = 0` case panics. -/
theorem mod_exp_zero_base (exponent modulus : Nat) (he : 1 ≤ exponent)
    (hm : 1 < modulus) :
    mod_exp_checked 0 exponent modulus = some 0 := by
  unfold mod_exp_checked
  have hpre : mod_exp_pre 0 exponent modulus := by
    refine ⟨by omega, ?_⟩
    rw [satAdd_ne_zero_iff]
    omega
  rw [if_pos hpre, mod_exp_eq_branches]
  rw [if_neg (by omega : ¬exponent = 0),
    if_pos (Or.inl (Nat.zero_mod modulus))]

theorem mod_exp_zero_base_witness : mod_exp_checked 0 7 5 = some 0 :=
  mod_exp_zero_base 7 5 (by norm_num) (by norm_num)

/-- The decomposition loop of `is_witness` (`math/src/primes/mod.rs` lines
22-29): starting from `q = n - 1`, halve `q` while it is even, counting
the halvings in `k`.  The source `while` loop is embedded with a fuel
argument; fuel 64 never runs out for the `u64` inputs the function is
called on (any power of two dividing a nonzero `u64` is at most `2^63`). -/
def splitPow2Go : Nat → Nat → Nat × Nat
  | 0, m => (0, m)
  | fuel + 1, m =>
    if m % 2 = 0 then
      let p := splitPow2Go fuel (m / 2)
      (p.1 + 1, p.2)
    else
      (0, m)

/-- On input `2 ^ k * q` with `q` odd and enough fuel, the decomposition
loop returns exactly `(k, q)`. -/
lemma splitPow2Go_eq (k : Nat) : ∀ fuel q, q % 2 = 1 → k ≤ fuel →
    splitPow2Go fuel (2 ^ k * q) = (k, q) := by
  induction k with
  | zero =>
    intro fuel q hq _
    cases fuel with
    | zero => simp [splitPow2Go]
    | succ f =>
      show (if 2 ^ 0 * q % 2 = 0 then _ else ((0 : Nat), 2 ^ 0 * q)) = ((0 : Nat), q)
      rw [if_neg (by omega), pow_zero, one_mul]
  | succ k ih =>
    intro fuel q hq hfuel
    cases fuel with
    | zero => omega
    | succ f =>
      have h2eq : 2 ^ (k + 1) * q = 2 * (2 ^ k * q) := by
        rw [pow_succ]
        ring
      rw [h2eq]
      show (if 2 * (2 ^ k * q) % 2 = 0 then
          ((splitPow2Go f (2 * (2 ^ k * q) / 2)).1 + 1,
            (splitPow2Go f (2 * (2 ^ k * q) / 2)).2)
        else _) = _
      rw [if_pos (Nat.mul_mod_right 2 _),
        Nat.mul_div_cancel_left _ (by norm_num : 0 < 2),
        ih f q hq (by omega)]

/-- `is_witness` from `math/src/primes/mod.rs` lines 18-44: decompose
`n - 1 = 2^k * q` with `q` odd, then report a Miller-Rabin witness iff
`mod_exp(val, q, n) != 1` and every `i` in `[0, k)` has
`mod_exp(val, 2^i * q, n) != n - 1`.  The two entry assertions
(`n >= 3`, `n` odd) become hypotheses of the theorems below; the interior
assertions always hold for such `n`. -/
def is_witness (n val : Nat) : Bool :=
  let p := splitPow2Go 64 (n - 1)
  let k := p.1
  let q := p.2
  decide (mod_exp val q n ≠ 1) &&
    (List.range k).all (fun i => decide (mod_exp val (2 ^ i * q) n ≠ n - 1))

/-- C3: for odd `n ≥ 3` in `u64` range, writing `n - 1 = 2^k * q` with `q`
odd, `is_witness n val` returns `true` exactly when `val ^ q mod n ≠ 1`
and no `i < k` has `val ^ (2^i * q) mod n = n - 1`. -/
theorem is_witness_spec (n val k q : Nat) (hn : 3 ≤ n) (hodd : n % 2 = 1)
    (hn64 : n < 2 ^ 64) (hdec : n - 1 = 2 ^ k * q) (hq : q % 2 = 1) :
    is_witness n val = true ↔
      (val ^ q % n ≠ 1 ∧ ∀ i, i < k → val ^ (2 ^ i * q) % n ≠ n - 1) := by
  have hq1 : 1 ≤ q := by omega
  have hkq : 2 ^ k ≤ n - 1 := by
    calc 2 ^ k ≤ 2 ^ k * q := Nat.le_mul_of_pos_right _ (by omega)
      _ = n - 1 := hdec.symm
  have hqn : q ≤ n - 1 := by
    calc q ≤ 2 ^ k * q := Nat.le_mul_of_pos_left _ (Nat.pos_pow_of_pos _ (by norm_num))
      _ = n - 1 := hdec.symm
  have hk64 : k ≤ 64 := by
    by_contra hcon
    have : 2 ^ 64 ≤ 2 ^ k := Nat.pow_le_pow_right (by norm_num) (by omega)
    omega
  have hn0 : 0 < n := by omega
  have hsplit : splitPow2Go 64 (n - 1) = (k, q) := by
    rw [hdec]
    exact splitPow2Go_eq k 64 q hq hk64
  have hmq : mod_exp val q n = val ^ q % n :=
    mod_exp_correct val q n hn0 (by omega)
  have hmi : ∀ i, i < k → mod_exp val (2 ^ i * q) n = val ^ (2 ^ i * q) % n := by
    intro i hi
    apply mod_exp_correct val _ n hn0
    have hle : 2 ^ i ≤ 2 ^ k := Nat.pow_le_pow_right (by norm_num) (by omega)
    have : 2 ^ i * q ≤ 2 ^ k * q := Nat.mul_le_mul_right q hle
    omega
  unfold is_witness
  rw [hsplit]
  simp only [Bool.and_eq_true, List.all_eq_true, List.mem_range,
    decide_eq_true_eq]
  constructor
  · rintro ⟨h1, h2⟩
    refine ⟨by rw [← hmq]; exact h1, ?_⟩
    intro i hi
    rw [← hmi i hi]
    exact h2 i hi
  · rintro ⟨h1, h2⟩
    refine ⟨by rw [hmq]; exact h1, ?_⟩
    intro i hi
    rw [hmi i hi]
    exact h2 i hi

theorem is_witness_spec_witness :
    is_witness 221 137 = true ↔
      (137 ^ 55 % 221 ≠ 1 ∧ ∀ i, i < 2 → 137 ^ (2 ^ i * 55) % 221 ≠ 220) :=
  is_witness_spec 221 137 2 55 (by norm_num) (by norm_num) (by norm_num)
    (by norm_num) (by norm_num)

/-- Sanity: the spec's known Miller-Rabin witness facts. -/
example : is_witness 221 174 = false := by decide
example : is_witness 221 137 = true := by decide
example : is_witness 104717 96152 = false := by decide

/-- The error type of `math/src/primes/mod.rs` lines 8-13. -/
inductive PrimeError
  | InvalidRange
  | PrimeNotFound
  | RngError
deriving DecidableEq

/-- Result of a prime-search entry point.  `ok`/`err` are the `Result`
values of the source; `crash` models an `assert!`/`unimplemented!` panic;
`noFuel` marks the modelled stream of random draws running out (the
source would keep drawing). -/
inductive SearchResult (α : Type)
  | ok (val : α)
  | err (e : PrimeError)
  | crash
  | noFuel
deriving DecidableEq

/-- `check_random_witnesses` from `math/src/primes/mod.rs` lines 51-59,
with the thread-local rng replaced by the explicit draw stream `draws`
(the i-th call to `rng.gen_range(2..n - 1)` yields `draws i`).  `none`
models the panics: the two entry assertions, and `gen_range` on the empty
range `2..n - 1` when `n = 3` (only reachable when at least one draw is
taken). -/
def check_random_witnesses (draws : Nat → Nat) (n count : Nat) : Option Bool :=
  if n < 3 ∨ n % 2 = 0 then none
  else if 0 < count ∧ n - 1 ≤ 2 then none
  else some ((List.range count).any (fun i => is_witness n (draws i)))

/-- `is_prime` from `math/src/primes/mod.rs` lines 61-64:
`!check_random_witnesses(n, 25)`. -/
def is_prime (draws : Nat → Nat) (n : Nat) : Option Bool :=
  (check_random_witnesses draws n 25).map (fun found => !found)

/-- `get_primitive_root` from `math/src/primes/mod.rs` lines 69-72.  Its
body is `assert!(is_prime(prime)); unimplemented!()`: every call panics
(either the assertion fails or `unimplemented!` is reached), so no value
is ever produced. -/
def get_primitive_root (_prime : Nat) : Option Nat := none

/-- `range_contains_known_prime` from `math/src/primes/mod.rs` lines
94-122.  `none` models the two entry assertions failing.  The `min < 25`
branch (`max >= 2 * min`, Bertrand) is exact integer arithmetic; for
`min >= 25` the source computes `ceil((1 + epsilon) * min)` in `f64`
(Nagura/Dusart bounds), which is abstracted by the parameter `fBound`
since IEEE-754 transcendental arithmetic is outside this embedding. -/
def range_contains_known_prime (fBound : Nat → Nat) (min max : Nat) : Option Bool :=
  if min < 3 ∨ max < min then none
  else if min < 25 then some (decide (2 * min ≤ max))
  else some (decide (fBound min ≤ max))

/-- `usize::saturating_mul` on the 64-bit `usize` of the target. -/
def satMulUsize (a b : Nat) : Nat := Nat.min (a * b) numMax

/-- The attempt cap computed at `math/src/primes/mod.rs` line 149:
`10_usize.saturating_mul((min - max + 1) as usize)`.  The subtraction
`min - max` is u64 arithmetic; on the only path that executes it the code
has just asserted `min < max`, so it wraps (release profile), embedded
here as `(min + 2^64 - max + 1) % 2^64`.  (In a debug profile the same
subtraction panics instead.) -/
def prime_attempts (min max : Nat) : Nat :=
  satMulUsize 10 ((min + 2 ^ 64 - max + 1) % 2 ^ 64)

/-- The guaranteed-branch search loop (`math/src/primes/mod.rs` lines
142-144): test candidates until one is prime.  `cands` is the stream of
`(min..=max).choose(rng)` draws; `wits j` is the witness-draw stream of
the j-th `is_prime` call. -/
def find_prime_loop (wits : Nat → Nat → Nat) : List Nat → SearchResult Nat
  | [] => .noFuel
  | c :: cs =>
    match is_prime (wits 0) c with
    | none => .crash
    | some true => .ok c
    | some false => find_prime_loop (fun j => wits (j + 1)) cs

/-- The capped probabilistic search loop (`math/src/primes/mod.rs` lines
151-155 plus the final `Err(PrimeNotFound)`): at most `attempts`
candidates are tested. -/
def find_prime_capped (wits : Nat → Nat → Nat) :
    Nat → List Nat → SearchResult Nat
  | 0, _ => .err .PrimeNotFound
  | _ + 1, [] => .noFuel
  | attempts + 1, c :: cs =>
    match is_prime (wits 0) c with
    | none => .crash
    | some true => .ok c
    | some false => find_prime_capped (fun j => wits (j + 1)) attempts cs

/-- `pick_random_prime` from `math/src/primes/mod.rs` lines 127-159:
validate the range, handle the singleton range, then search with the
strategy chosen by the density oracle. -/
def pick_random_prime (wits : Nat → Nat → Nat) (cands : List Nat)
    (fBound : Nat → Nat) (min max : Nat) : SearchResult Nat :=
  if max < min ∨ max < 3 then .err .InvalidRange
  else if min = max then
    match is_prime (wits 0) min with
    | none => .crash
    | some true => .ok min
    | some false => .err .PrimeNotFound
  else
    match range_contains_known_prime fBound min max with
    | none => .crash
    | some true => find_prime_loop wits cands
    | some false => find_prime_capped wits (prime_attempts min max) cands

/-- `pick_random_with_root` from `math/src/primes/mod.rs` lines 167-175:
propagate `pick_random_prime` failures, then call `get_primitive_root`. -/
def pick_random_with_root (wits : Nat → Nat → Nat) (cands : List Nat)
    (fBound : Nat → Nat) (min max : Nat) : SearchResult (Nat × Nat) :=
  match pick_random_prime wits cands fBound min max with
  | .ok prime =>
    match get_primitive_root prime with
    | some root => .ok (prime, root)
    | none => .crash
  | .err e => .err e
  | .crash => .crash
  | .noFuel => .noFuel

/-- C10: a range with `min < 3 <= max` and `min < max` passes the
documented error checks (`min > max || max < 3`) and the singleton test,
and then hits `assert!(min >= 3)` inside `range_contains_known_prime`:
`pick_random_prime` panics, returning neither `Ok` nor a typed error. -/
theorem pick_random_prime_low_min_panics (wits : Nat → Nat → Nat)
    (cands : List Nat) (fBound : Nat → Nat) (min max : Nat)
    (h1 : min < 3) (h2 : min < max) (h3 : 3 ≤ max) :
    pick_random_prime wits cands fBound min max = .crash := by
  unfold pick_random_prime
  rw [if_neg (by omega), if_neg (by omega)]
  unfold range_contains_known_prime
  rw [if_pos (Or.inl h1)]

theorem pick_random_prime_low_min_panics_witness :
    pick_random_prime (fun _ _ => 0) [] (fun _ => 0) 2 5 = .crash :=
  pick_random_prime_low_min_panics (fun _ _ => 0) [] (fun _ => 0) 2 5
    (by norm_num) (by norm_num) (by norm_num)

/-- C5 (code bug): on the probabilistic branch the source computes the
attempt cap as `10.saturating_mul(min - max + 1)` with the operands of
the subtraction swapped.  Since that branch asserts `min < max`, the
subtraction underflows: for the range `[20, 30]` (which the Bertrand
branch of the oracle reports as not guaranteed, `30 < 2 * 20`) the cap
evaluates to `usize::MAX`, not the intended `10 * (30 - 20 + 1) = 110`. -/
theorem prime_attempts_underflow_bug :
    prime_attempts 20 30 = numMax ∧
      prime_attempts 20 30 ≠ 10 * (30 - 20 + 1) ∧
      range_contains_known_prime (fun m => m) 20 30 = some false := by
  refine ⟨by decide, by decide, by decide⟩

/-- C8 (code bug): whenever `pick_random_prime` succeeds,
`pick_random_with_root` still never returns `Ok` because
`get_primitive_root` is `unimplemented!()`.  Concretely, the singleton
range `[5, 5]` yields the prime 5 for every draw stream (5 has no
Miller-Rabin witnesses), after which the call panics. -/
theorem pick_random_with_root_unimplemented :
    pick_random_prime (fun _ _ => 2) [] (fun _ => 0) 5 5 = .ok 5 ∧
      pick_random_with_root (fun _ _ => 2) [] (fun _ => 0) 5 5 = .crash := by
  refine ⟨by decide, by decide⟩

/-- Reducing either factor of a product modulo `p` does not change the
product modulo `p`. -/
lemma mul_mod_fold_right (a t p : Nat) : a * (t % p) % p = a * t % p := by
  rw [Nat.mul_mod a (t % p) p, Nat.mod_mod_of_dvd t dvd_rfl, ← Nat.mul_mod]

lemma mul_mod_fold_left (t a p : Nat) : t % p * a % p = t * a % p := by
  rw [Nat.mul_mod (t % p) a p, Nat.mod_mod_of_dvd t dvd_rfl, ← Nat.mul_mod]

/-- `Key` from `src/crypt/mod.rs` lines 18-22: a prime modulus, a root of
its multiplicative group, and either the private exponent or the public
value `root ^ exponent mod prime`. -/
structure Key where
  prime : Nat
  root : Nat
  value : Nat

/-- `encrypt_block_det` from `src/crypt/mod.rs` lines 95-104.  The guard
models the three entry assertions (`key.prime > Block::MAX`, `r < key.prime`,
`r > 0`); under them the `mod_exp` preconditions hold at both call sites
(`r > 0` rules out the zero sentinel).  The ciphertext is
`(g^r mod p, block * (value^r mod p) mod p)`, the `u128` product being
exact in `Nat`. -/
def encrypt_block_det (block : Nat) (key : Key) (r : Nat) : Option (Nat × Nat) :=
  if blockMax < key.prime ∧ 0 < r ∧ r < key.prime then
    some (mod_exp key.root r key.prime,
      block * mod_exp key.value r key.prime % key.prime)
  else
    none

/-- `decrypt_block` from `src/crypt/mod.rs` lines 118-125, with the
source's `c1_term`/`c2_term`/`result` locals inlined.  The outer guard
models the assertions inside the `mod_exp` call; the inner guard is
`assert!(result <= Block::MAX)`, and the returned value carries the
`result as Block` narrowing cast written out as `% 2 ^ 32`. -/
def decrypt_block (c1 c2 : Nat) (key : Key) : Option Nat :=
  if mod_exp_pre c1 (key.prime - key.value - 1) key.prime then
    if mod_exp c1 (key.prime - key.value - 1) key.prime * (c2 % key.prime)
        % key.prime ≤ blockMax then
      some (mod_exp c1 (key.prime - key.value - 1) key.prime * (c2 % key.prime)
        % key.prime % 2 ^ 32)
    else
      none
  else
    none

/-- `g` is a primitive root of `p`: the positive powers of `g` that are
`1 mod p` are exactly the positive multiples of `p - 1`, i.e. the
multiplicative order of `g` modulo `p` is `p - 1`. -/
def isPrimitiveRootOf (g p : Nat) : Prop :=
  ∀ d, 0 < d → (g ^ d % p = 1 ↔ (p - 1) ∣ d)

/-- A matched ElGamal key pair as produced by `KeyPair::generate`
(`src/crypt/mod.rs` lines 69-87): a `u64` prime above `Block::MAX`, a
primitive root `g` of `p`, and a private exponent from
`gen_range(1..prime - 1)`, i.e. `1 <= x <= p - 2`. -/
def matchedKeyPair (p g x : Nat) : Prop :=
  Nat.Prime p ∧ blockMax < p ∧ p < 2 ^ 64 ∧ isPrimitiveRootOf g p ∧
    1 ≤ x ∧ x ≤ p - 2

/-- `encrypt_block_det` with the key fields spelled out. -/
lemma encrypt_block_det_eval (block p g v r : Nat) :
    encrypt_block_det block ⟨p, g, v⟩ r =
      if blockMax < p ∧ 0 < r ∧ r < p then
        some (mod_exp g r p, block * mod_exp v r p % p)
      else none := rfl

/-- `decrypt_block` with the key fields spelled out. -/
lemma decrypt_block_eval (c1 c2 p g x : Nat) :
    decrypt_block c1 c2 ⟨p, g, x⟩ =
      if mod_exp_pre c1 (p - x - 1) p then
        if mod_exp c1 (p - x - 1) p * (c2 % p) % p ≤ blockMax then
          some (mod_exp c1 (p - x - 1) p * (c2 % p) % p % 2 ^ 32)
        else none
      else none := rfl

/-- Core ElGamal round trip at block level: decrypting what
`encrypt_block_det` produced with the matching private key recovers the
block exactly. -/
lemma crypt_block_roundtrip (p g x b r : Nat) (hkp : matchedKeyPair p g x)
    (hb : b ≤ blockMax) (hr1 : 1 ≤ r) (hr2 : r < p) :
    (encrypt_block_det b ⟨p, g, mod_exp g x p⟩ r).bind
      (fun c => decrypt_block c.1 c.2 ⟨p, g, x⟩) = some b := by
  obtain ⟨hp, hpB, hp64, hg, hx1, hx2⟩ := hkp
  have hpB' : 2 ^ 32 - 1 < p := hpB
  have hp1 : 1 < p := by omega
  have hp0 : 0 < p := by omega
  have hbp : b < p := by
    unfold blockMax at hb
    omega
  have hgp1 : g ^ (p - 1) % p = 1 := (hg (p - 1) (by omega)).mpr dvd_rfl
  have hpub : mod_exp g x p = g ^ x % p := mod_exp_correct g x p hp0 (by omega)
  have hc1 : mod_exp g r p = g ^ r % p := mod_exp_correct g r p hp0 (by omega)
  have her : mod_exp (g ^ x % p) r p = g ^ (x * r) % p := by
    rw [mod_exp_correct _ r p hp0 (by omega), ← Nat.pow_mod, ← pow_mul]
  have henc : encrypt_block_det b ⟨p, g, mod_exp g x p⟩ r =
      some (g ^ r % p, b * g ^ (x * r) % p) := by
    rw [encrypt_block_det_eval, if_pos ⟨hpB, by omega, hr2⟩, hpub, her, hc1,
      mul_mod_fold_right]
  rw [henc]
  show decrypt_block (g ^ r % p) (b * g ^ (x * r) % p) ⟨p, g, x⟩ = some b
  have hdc1 : mod_exp (g ^ r % p) (p - x - 1) p = g ^ (r * (p - x - 1)) % p := by
    rw [mod_exp_correct _ _ p hp0 (by omega), ← Nat.pow_mod, ← pow_mul]
  have hexp : r * (p - x - 1) + x * r = r * (p - 1) := by
    have hsum : (p - x - 1) + x = p - 1 := by omega
    calc r * (p - x - 1) + x * r = r * ((p - x - 1) + x) := by ring
      _ = r * (p - 1) := by rw [hsum]
  have hunit : g ^ (r * (p - 1)) % p = 1 := by
    rw [mul_comm r (p - 1), pow_mul, Nat.pow_mod, hgp1, one_pow,
      Nat.mod_eq_of_lt hp1]
  have hc2lt : b * g ^ (x * r) % p < p := Nat.mod_lt _ hp0
  have hres : mod_exp (g ^ r % p) (p - x - 1) p *
      (b * g ^ (x * r) % p % p) % p = b := by
    rw [hdc1, Nat.mod_eq_of_lt hc2lt, mul_mod_fold_left, mul_mod_fold_right]
    have hcollect : g ^ (r * (p - x - 1)) * (b * g ^ (x * r)) =
        b * g ^ (r * (p - x - 1) + x * r) := by
      rw [pow_add]
      ring
    rw [hcollect, hexp, Nat.mul_mod, hunit, Nat.mul_one,
      Nat.mod_mod_of_dvd b dvd_rfl, Nat.mod_eq_of_lt hbp]
  have hpre : mod_exp_pre (g ^ r % p) (p - x - 1) p := by
    refine ⟨hp0, ?_⟩
    rw [satAdd_ne_zero_iff]
    omega
  rw [decrypt_block_eval, if_pos hpre, hres, if_pos hb,
    Nat.mod_eq_of_lt (by unfold blockMax at hb; omega : b < 2 ^ 32)]

/-- C1: for every matched key pair, every block not exceeding
`Block::MAX`, and every ephemeral exponent `1 <= r < p`, decrypting the
deterministic encryption of the block with the matching private key
returns exactly the block. -/
theorem encrypt_decrypt_block_roundtrip (p g x b r : Nat)
    (hkp : matchedKeyPair p g x) (hb : b ≤ blockMax)
    (hr1 : 1 ≤ r) (hr2 : r < p) :
    (encrypt_block_det b ⟨p, g, mod_exp g x p⟩ r).bind
      (fun c => decrypt_block c.1 c.2 ⟨p, g, x⟩) = some b :=
  crypt_block_roundtrip p g x b r hkp hb hr1 hr2

/-- A natural number casts to `1` in `ZMod p` exactly when it is `1 mod p`. -/
lemma natCast_eq_one_iff (p t : Nat) (hp1 : 1 < p) :
    ((t : Nat) : ZMod p) = 1 ↔ t % p = 1 := by
  have h1 : ((1 : Nat) : ZMod p) = 1 := Nat.cast_one
  rw [← h1, ZMod.natCast_eq_natCast_iff', Nat.mod_eq_of_lt hp1]

/-- Certificate form of `isPrimitiveRootOf`: for a prime `p`, if
`g ^ (p-1) = 1 mod p` while `g ^ ((p-1)/q) ≠ 1 mod p` for every prime
divisor `q` of `p - 1`, then the order of `g` is exactly `p - 1`. -/
lemma isPrimitiveRootOf_of_checks (p g : Nat) (hp : Nat.Prime p)
    (h1 : g ^ (p - 1) % p = 1)
    (h2 : ∀ q, Nat.Prime q → q ∣ p - 1 → g ^ ((p - 1) / q) % p ≠ 1) :
    isPrimitiveRootOf g p := by
  have hp1 : 1 < p := hp.one_lt
  have hcast : ∀ e : Nat, (g : ZMod p) ^ e = ((g ^ e % p : Nat) : ZMod p) := by
    intro e
    rw [ZMod.natCast_mod, Nat.cast_pow]
  have ha1 : (g : ZMod p) ^ (p - 1) = 1 := by
    rw [hcast, h1, Nat.cast_one]
  have hd : ∀ q : ℕ, q.Prime → q ∣ (p - 1) → (g : ZMod p) ^ ((p - 1) / q) ≠ 1 := by
    intro q hq hdvd hcon
    refine h2 q hq hdvd ?_
    rw [hcast] at hcon
    have h := (natCast_eq_one_iff p _ hp1).mp hcon
    rwa [Nat.mod_mod_of_dvd _ dvd_rfl] at h
  have hord : orderOf (g : ZMod p) = p - 1 :=
    orderOf_eq_of_pow_and_pow_div_prime (by omega) ha1 hd
  intro d _
  rw [← natCast_eq_one_iff p _ hp1, Nat.cast_pow, ← hord]
  exact orderOf_dvd_iff_pow_eq_one.symm

/-- Prime divisors of `4464836608 = 2 ^ 21 * 2129`. -/
lemma prime_divisors_4464836608 (q : Nat) (hq : Nat.Prime q)
    (hdvd : q ∣ 4464836608) : q = 2 ∨ q = 2129 := by
  have hfact : (4464836608 : Nat) = 2 ^ 21 * 2129 := by norm_num
  rw [hfact] at hdvd
  rcases (Nat.Prime.dvd_mul hq).mp hdvd with h | h
  · left
    have h2 := Nat.Prime.dvd_of_dvd_pow hq h
    exact (Nat.prime_dvd_prime_iff_eq hq Nat.prime_two).mp h2
  · right
    exact (Nat.prime_dvd_prime_iff_eq hq (by norm_num)).mp h

lemma pow_mod_P_full : (3 : Nat) ^ 4464836608 % 4464836609 = 1 := by
  rw [← mod_exp_correct 3 4464836608 4464836609 (by norm_num) (by norm_num)]
  decide

lemma pow_mod_P_half : (3 : Nat) ^ 2232418304 % 4464836609 = 4464836608 := by
  rw [← mod_exp_correct 3 2232418304 4464836609 (by norm_num) (by norm_num)]
  decide

lemma pow_mod_P_odd : (3 : Nat) ^ 2097152 % 4464836609 = 2382279957 := by
  rw [← mod_exp_correct 3 2097152 4464836609 (by norm_num) (by norm_num)]
  decide

/-- `4464836609 = 2129 * 2 ^ 21 + 1` is prime, by the Lucas certificate
with base 3. -/
lemma prime_4464836609 : Nat.Prime 4464836609 := by
  have hcast : ∀ e : Nat,
      ((3 : Nat) : ZMod 4464836609) ^ e =
        (((3 : Nat) ^ e % 4464836609 : Nat) : ZMod 4464836609) := by
    intro e
    rw [ZMod.natCast_mod, Nat.cast_pow]
  apply lucas_primality 4464836609 ((3 : Nat) : ZMod 4464836609)
  · have hs : (4464836609 - 1 : Nat) = 4464836608 := by norm_num
    rw [hs, hcast, pow_mod_P_full, Nat.cast_one]
  · intro q hq hdvd
    have hs : (4464836609 - 1 : Nat) = 4464836608 := by norm_num
    rw [hs] at hdvd ⊢
    rcases prime_divisors_4464836608 q hq hdvd with rfl | rfl
    · rw [show (4464836608 / 2 : Nat) = 2232418304 by norm_num, hcast]
      intro hcon
      have h := (natCast_eq_one_iff 4464836609 _ (by norm_num)).mp hcon
      rw [Nat.mod_mod_of_dvd _ dvd_rfl, pow_mod_P_half] at h
      exact absurd h (by norm_num)
    · rw [show (4464836608 / 2129 : Nat) = 2097152 by norm_num, hcast]
      intro hcon
      have h := (natCast_eq_one_iff 4464836609 _ (by norm_num)).mp hcon
      rw [Nat.mod_mod_of_dvd _ dvd_rfl, pow_mod_P_odd] at h
      exact absurd h (by norm_num)

/-- 3 generates the full multiplicative group modulo 4464836609. -/
lemma primroot_3_4464836609 : isPrimitiveRootOf 3 4464836609 := by
  apply isPrimitiveRootOf_of_checks _ _ prime_4464836609
  · rw [show (4464836609 - 1 : Nat) = 4464836608 by norm_num, pow_mod_P_full]
  · intro q hq hdvd
    rw [show (4464836609 - 1 : Nat) = 4464836608 by norm_num] at hdvd ⊢
    rcases prime_divisors_4464836608 q hq hdvd with rfl | rfl
    · rw [show (4464836608 / 2 : Nat) = 2232418304 by norm_num, pow_mod_P_half]
      norm_num
    · rw [show (4464836608 / 2129 : Nat) = 2097152 by norm_num, pow_mod_P_odd]
      norm_num

/-- A concrete matched key pair: prime 4464836609 (just above
`Block::MAX`), primitive root 3, private exponent 1. -/
lemma matchedKeyPair_concrete : matchedKeyPair 4464836609 3 1 := by
  refine ⟨prime_4464836609, ?_, by norm_num, primroot_3_4464836609,
    le_refl 1, by norm_num⟩
  unfold blockMax
  norm_num

theorem encrypt_decrypt_block_roundtrip_witness :
    (encrypt_block_det 3405691582 ⟨4464836609, 3, mod_exp 3 1 4464836609⟩ 2).bind
      (fun c => decrypt_block c.1 c.2 ⟨4464836609, 3, 1⟩) = some 3405691582 :=
  encrypt_decrypt_block_roundtrip 4464836609 3 1 3405691582 2
    matchedKeyPair_concrete (by unfold blockMax; norm_num) (by norm_num)
    (by norm_num)

/-- C9: writing the decrypted residue as
`c1 ^ (p - priv - 1) * c2 mod p`, `decrypt_block` returns `none` (the
`assert!(result <= Block::MAX)` panic, i.e. a surfaced decode failure,
never a truncated block) whenever the residue exceeds `Block::MAX`; and
any block it does return equals the residue exactly, the `as Block`
narrowing cast being lossless under the assertion. -/
theorem decrypt_block_no_silent_truncation (key : Key) (c1 c2 : Nat)
    (hp : 1 < key.prime) (hp64 : key.prime < 2 ^ 64)
    (hpre : satAdd c1 (key.prime - key.value - 1) ≠ 0) :
    (blockMax < c1 ^ (key.prime - key.value - 1) * c2 % key.prime →
        decrypt_block c1 c2 key = none) ∧
      (∀ bl, decrypt_block c1 c2 key = some bl →
        bl = c1 ^ (key.prime - key.value - 1) * c2 % key.prime) := by
  have hp0 : 0 < key.prime := by omega
  have hres : mod_exp c1 (key.prime - key.value - 1) key.prime *
      (c2 % key.prime) % key.prime =
      c1 ^ (key.prime - key.value - 1) * c2 % key.prime := by
    rw [mod_exp_correct _ _ _ hp0 (by omega), mul_mod_fold_left,
      mul_mod_fold_right]
  unfold decrypt_block
  rw [if_pos ⟨hp0, hpre⟩, hres]
  constructor
  · intro hbig
    rw [if_neg (by omega)]
  · intro bl hbl
    by_cases hle : c1 ^ (key.prime - key.value - 1) * c2 % key.prime ≤ blockMax
    · rw [if_pos hle] at hbl
      have hlt : c1 ^ (key.prime - key.value - 1) * c2 % key.prime < 2 ^ 32 := by
        unfold blockMax at hle
        omega
      rw [Nat.mod_eq_of_lt hlt] at hbl
      exact (Option.some.injEq _ _).mp hbl.symm
    · rw [if_neg hle] at hbl
      exact absurd hbl (by simp)

theorem decrypt_block_no_silent_truncation_witness :
    (blockMax < 77000 ^ 2 * 1 % 6000000000 →
        decrypt_block 77000 1 ⟨6000000000, 0, 5999999997⟩ = none) ∧
      (∀ bl, decrypt_block 77000 1 ⟨6000000000, 0, 5999999997⟩ = some bl →
        bl = 77000 ^ 2 * 1 % 6000000000) :=
  decrypt_block_no_silent_truncation ⟨6000000000, 0, 5999999997⟩ 77000 1
    (by norm_num) (by norm_num) (by decide)

/-- Big-endian byte serialization of a `w`-byte unsigned integer
(`u64::to_be_bytes` with `w = 8`, `u32::to_be_bytes` with `w = 4`). -/
def toBeBytes : Nat → Nat → List Nat
  | 0, _ => []
  | w + 1, n => toBeBytes w (n / 256) ++ [n % 256]

/-- Big-endian byte deserialization (`from_be_bytes`). -/
def fromBeBytes (l : List Nat) : Nat :=
  l.foldl (fun acc b => acc * 256 + b) 0

lemma toBeBytes_length (w : Nat) : ∀ n, (toBeBytes w n).length = w := by
  induction w with
  | zero => intro n; rfl
  | succ w ih =>
    intro n
    simp [toBeBytes, ih]

lemma fromBeBytes_go (l : List Nat) : ∀ acc,
    l.foldl (fun acc b => acc * 256 + b) acc =
      acc * 256 ^ l.length + fromBeBytes l := by
  induction l with
  | nil => intro acc; simp [fromBeBytes]
  | cons b t ih =>
    intro acc
    have h1 : (b :: t).foldl (fun acc b => acc * 256 + b) acc =
        t.foldl (fun acc b => acc * 256 + b) (acc * 256 + b) := rfl
    have h2 : fromBeBytes (b :: t) =
        t.foldl (fun acc b => acc * 256 + b) (0 * 256 + b) := rfl
    rw [h1, h2, ih (acc * 256 + b), ih (0 * 256 + b), List.length_cons, pow_succ]
    ring

lemma fromBeBytes_append (l1 l2 : List Nat) :
    fromBeBytes (l1 ++ l2) = fromBeBytes l1 * 256 ^ l2.length + fromBeBytes l2 := by
  unfold fromBeBytes
  rw [List.foldl_append]
  rw [show (List.foldl (fun acc b => acc * 256 + b) 0 l1) = fromBeBytes l1 from rfl]
  exact fromBeBytes_go l2 (fromBeBytes l1)

lemma fromBeBytes_lt (l : List Nat) (h : ∀ b ∈ l, b < 256) :
    fromBeBytes l < 256 ^ l.length := by
  induction l with
  | nil => simp [fromBeBytes]
  | cons b t ih =>
    have hb : b < 256 := h b (List.mem_cons_self b t)
    have ht := ih (fun x hx => h x (List.mem_cons_of_mem b hx))
    have heq := fromBeBytes_append [b] t
    rw [List.singleton_append] at heq
    have hfb1 : fromBeBytes [b] = b := by
      unfold fromBeBytes
      simp
    rw [hfb1] at heq
    rw [heq, List.length_cons, pow_succ]
    calc b * 256 ^ t.length + fromBeBytes t
        < b * 256 ^ t.length + 256 ^ t.length := by omega
      _ = (b + 1) * 256 ^ t.length := by ring
      _ ≤ 256 * 256 ^ t.length := by
          have : b + 1 ≤ 256 := by omega
          exact Nat.mul_le_mul_right _ this
      _ = 256 ^ t.length * 256 := by ring

lemma fromBeBytes_toBeBytes (w : Nat) : ∀ n, n < 256 ^ w →
    fromBeBytes (toBeBytes w n) = n := by
  induction w with
  | zero =>
    intro n hn
    have : n = 0 := by simpa using hn
    simp [this, toBeBytes, fromBeBytes]
  | succ w ih =>
    intro n hn
    have hdiv : n / 256 < 256 ^ w := by
      rw [pow_succ] at hn
      omega
    show fromBeBytes (toBeBytes w (n / 256) ++ [n % 256]) = n
    rw [fromBeBytes_append, ih (n / 256) hdiv]
    show n / 256 * 256 ^ ([n % 256].length) + fromBeBytes [n % 256] = n
    have hsingle : fromBeBytes [n % 256] = n % 256 := by
      unfold fromBeBytes
      simp
    rw [hsingle, List.length_singleton, pow_one]
    omega

lemma toBeBytes_fromBeBytes (l : List Nat) (h : ∀ b ∈ l, b < 256) :
    toBeBytes l.length (fromBeBytes l) = l := by
  induction l using List.reverseRecOn with
  | nil => rfl
  | append_singleton t b ih =>
    have hb : b < 256 := h b (by simp)
    have ht : ∀ x ∈ t, x < 256 := fun x hx => h x (by simp [hx])
    have hfb : fromBeBytes (t ++ [b]) = fromBeBytes t * 256 + b := by
      rw [fromBeBytes_append]
      have : fromBeBytes [b] = b := by unfold fromBeBytes; simp
      simp [this]
    rw [List.length_append, List.length_singleton]
    show toBeBytes (t.length + 1) (fromBeBytes (t ++ [b])) = t ++ [b]
    show toBeBytes t.length (fromBeBytes (t ++ [b]) / 256) ++
      [fromBeBytes (t ++ [b]) % 256] = t ++ [b]
    rw [hfb]
    have hdiv : (fromBeBytes t * 256 + b) / 256 = fromBeBytes t := by omega
    have hmod : (fromBeBytes t * 256 + b) % 256 = b := by omega
    rw [hdiv, hmod, ih ht]

/-- The read-pad loop of `encrypt_ecb` (`src/main.rs` lines 110-128),
expressed on the plaintext byte list: each iteration consumes
`min(4, remaining)` bytes into the 4-byte buffer; a short final read of
`4 - padBytes` bytes triggers `pad_block` (lines 91-98), which fills the
`padBytes - 1` unused bytes from the random stream `pad` and stores the
pad count in the buffer's last byte.  At most one pad event occurs per
run, so a single random byte stream suffices. -/
def ecbChunksGo (pad : Nat → Nat) : List Nat → List (List Nat)
  | [] => []
  | [b1] => [[b1, pad 0, pad 1, 3]]
  | [b1, b2] => [[b1, b2, pad 0, 2]]
  | [b1, b2, b3] => [[b1, b2, b3, 1]]
  | b1 :: b2 :: b3 :: b4 :: rest => [b1, b2, b3, b4] :: ecbChunksGo pad rest

/-- The buffers fed to `encrypt_block_to_file` by `encrypt_ecb`
(`src/main.rs` lines 105-138): the loop's buffers, plus — when no short
final block occurred (`!has_padded_block`, i.e. the stream length is an
exact multiple of 4, including the empty stream) — one extra fully padded
block whose pad count is the full block width 4 (lines 130-135). -/
def ecbChunks (pad : Nat → Nat) (stream : List Nat) : List (List Nat) :=
  if stream.length % 4 = 0 then
    ecbChunksGo pad stream ++ [[pad 0, pad 1, pad 2, 4]]
  else
    ecbChunksGo pad stream

/-- `encrypt_block_to_file` (`src/main.rs` lines 72-83) on one buffer:
`Block::from_be_bytes`, `encrypt_block` with ephemeral exponent `r`, and
the two ciphertext words written big-endian. -/
def encrypt_chunk_bytes (key : Key) (r : Nat) (chunk : List Nat) :
    Option (List Nat) :=
  match encrypt_block_det (fromBeBytes chunk) key r with
  | none => none
  | some c => some (toBeBytes 8 c.1 ++ toBeBytes 8 c.2)

/-- The encryption loop over the prepared buffers; `rs i` is the
`rng.gen_range(1..key.prime)` draw of the i-th `encrypt_block` call. -/
def encryptChunks (key : Key) (rs : Nat → Nat) :
    List (List Nat) → Option (List Nat)
  | [] => some []
  | c :: cs =>
    match encrypt_chunk_bytes key (rs 0) c with
    | none => none
    | some ct =>
      match encryptChunks key (fun i => rs (i + 1)) cs with
      | none => none
      | some rest => some (ct ++ rest)

/-- `encrypt_ecb` from `src/main.rs` lines 105-138 on a byte list, with
the ciphertext file contents as the output byte list. -/
def encrypt_ecb (key : Key) (rs pad : Nat → Nat) (stream : List Nat) :
    Option (List Nat) :=
  encryptChunks key rs (ecbChunks pad stream)

/-- `decrypt_ecb` from `src/main.rs` lines 145-180: consume 16-byte
ciphertext chunks (`none` models the `UnexpectedEof` error when fewer
than 16 bytes remain, including a trailing partial chunk); decrypt each
(`none` propagates the `decrypt_block` panic); emit all four block bytes
for interior blocks; for the final block (reader at EOF) read the pad
count from the last byte, panic if it exceeds the width (the
`assert!(pad_bytes <= block_bytes.len())`), and emit only the leading
`4 - pad` bytes. -/
def decrypt_ecb (key : Key) (bytes : List Nat) : Option (List Nat) :=
  if h : bytes.length < 16 then
    none
  else
    match decrypt_block (fromBeBytes (bytes.take 8))
        (fromBeBytes ((bytes.drop 8).take 8)) key with
    | none => none
    | some bl =>
      if bytes.length = 16 then
        if (toBeBytes 4 bl).getD 3 0 ≤ 4 then
          some ((toBeBytes 4 bl).take (4 - (toBeBytes 4 bl).getD 3 0))
        else
          none
      else
        match decrypt_ecb key (bytes.drop 16) with
        | none => none
        | some rest => some (toBeBytes 4 bl ++ rest)
termination_by bytes.length
decreasing_by
  simp [List.length_drop]
  omega

/-- Reassembly of the plaintext from the decrypted buffers: interior
buffers verbatim, the final buffer stripped of its pad. -/
def unpadLast : List (List Nat) → List Nat
  | [] => []
  | [c] => c.take (4 - c.getD 3 0)
  | c :: cs => c ++ unpadLast cs

/-- The final buffer of a prepared buffer list carries a pad count of at
most the block width (so decryption's pad assertion passes). -/
def lastPadOk : List (List Nat) → Prop
  | [] => True
  | [c] => c.getD 3 0 ≤ 4
  | _ :: cs => lastPadOk cs

lemma lastPadOk_concat (cs : List (List Nat)) (c : List Nat)
    (h : c.getD 3 0 ≤ 4) : lastPadOk (cs ++ [c]) := by
  induction cs with
  | nil => exact h
  | cons a t iht =>
    cases t with
    | nil => exact h
    | cons b t' => exact iht

lemma unpadLast_concat (cs : List (List Nat)) (c : List Nat) :
    unpadLast (cs ++ [c]) = cs.flatten ++ c.take (4 - c.getD 3 0) := by
  induction cs with
  | nil => simp [unpadLast]
  | cons a t iht =>
    cases t with
    | nil => simp [unpadLast]
    | cons b t' =>
      show a ++ unpadLast ((b :: t') ++ [c]) = _
      rw [iht]
      simp [List.flatten]

lemma ecbChunksGo_ne_nil (pad : Nat → Nat) (s : List Nat) (h : s ≠ []) :
    ecbChunksGo pad s ≠ [] := by
  match s with
  | [] => exact absurd rfl h
  | [b1] => simp [ecbChunksGo]
  | [b1, b2] => simp [ecbChunksGo]
  | [b1, b2, b3] => simp [ecbChunksGo]
  | b1 :: b2 :: b3 :: b4 :: rest => simp [ecbChunksGo]

lemma ecbChunksGo_valid (pad : Nat → Nat) (hpad : ∀ i, pad i < 256) :
    ∀ s : List Nat, (∀ b ∈ s, b < 256) →
      ∀ c ∈ ecbChunksGo pad s, c.length = 4 ∧ ∀ b ∈ c, b < 256 := by
  intro s
  induction s using ecbChunksGo.induct pad with
  | case1 =>
    intro _ c hc
    simp [ecbChunksGo] at hc
  | case2 b1 =>
    intro hs c hc
    simp [ecbChunksGo] at hc
    subst hc
    refine ⟨rfl, ?_⟩
    intro b hb
    have h1 : b1 < 256 := hs b1 (by simp)
    have h2 := hpad 0
    have h3 := hpad 1
    simp at hb
    rcases hb with rfl | rfl | rfl | rfl <;> omega
  | case3 b1 b2 =>
    intro hs c hc
    simp [ecbChunksGo] at hc
    subst hc
    refine ⟨rfl, ?_⟩
    intro b hb
    have h1 : b1 < 256 := hs b1 (by simp)
    have h2 : b2 < 256 := hs b2 (by simp)
    have h3 := hpad 0
    simp at hb
    rcases hb with rfl | rfl | rfl | rfl <;> omega
  | case4 b1 b2 b3 =>
    intro hs c hc
    simp [ecbChunksGo] at hc
    subst hc
    refine ⟨rfl, ?_⟩
    intro b hb
    have h1 : b1 < 256 := hs b1 (by simp)
    have h2 : b2 < 256 := hs b2 (by simp)
    have h3 : b3 < 256 := hs b3 (by simp)
    simp at hb
    rcases hb with rfl | rfl | rfl | rfl <;> omega
  | case5 b1 b2 b3 b4 rest ih =>
    intro hs c hc
    simp only [ecbChunksGo, List.mem_cons] at hc
    rcases hc with rfl | hc
    · refine ⟨rfl, ?_⟩
      intro b hb
      simp at hb
      rcases hb with rfl | rfl | rfl | rfl <;> exact hs _ (by simp)
    · exact ih (fun b hb => hs b (by simp [hb])) c hc

lemma ecbChunksGo_join (pad : Nat → Nat) :
    ∀ s : List Nat, s.length % 4 = 0 → (ecbChunksGo pad s).flatten = s := by
  intro s
  induction s using ecbChunksGo.induct pad with
  | case1 => intro _; rfl
  | case2 b1 => intro h; simp at h
  | case3 b1 b2 => intro h; simp at h
  | case4 b1 b2 b3 => intro h; simp at h
  | case5 b1 b2 b3 b4 rest ih =>
    intro h
    have hrest : rest.length % 4 = 0 := by
      simp [List.length_cons] at h
      omega
    simp [ecbChunksGo, List.flatten, ih hrest]

lemma ecbChunksGo_unpad (pad : Nat → Nat) :
    ∀ s : List Nat, s.length % 4 ≠ 0 → unpadLast (ecbChunksGo pad s) = s := by
  intro s
  induction s using ecbChunksGo.induct pad with
  | case1 => intro h; simp at h
  | case2 b1 => intro _; simp [ecbChunksGo, unpadLast, List.getD]
  | case3 b1 b2 => intro _; simp [ecbChunksGo, unpadLast, List.getD]
  | case4 b1 b2 b3 => intro _; simp [ecbChunksGo, unpadLast, List.getD]
  | case5 b1 b2 b3 b4 rest ih =>
    intro h
    have hrest : rest.length % 4 ≠ 0 := by
      simp [List.length_cons] at h
      omega
    have hne : rest ≠ [] := by
      intro hcon
      subst hcon
      simp at hrest
    obtain ⟨gc, gcs, hgo⟩ : ∃ gc gcs, ecbChunksGo pad rest = gc :: gcs := by
      cases hgo : ecbChunksGo pad rest with
      | nil => exact absurd hgo (ecbChunksGo_ne_nil pad rest hne)
      | cons a l => exact ⟨a, l, rfl⟩
    show unpadLast ([b1, b2, b3, b4] :: ecbChunksGo pad rest) = _
    rw [hgo]
    show [b1, b2, b3, b4] ++ unpadLast (gc :: gcs) = _
    rw [← hgo, ih hrest]
    rfl

lemma ecbChunksGo_lastPad (pad : Nat → Nat) :
    ∀ s : List Nat, s.length % 4 ≠ 0 → lastPadOk (ecbChunksGo pad s) := by
  intro s
  induction s using ecbChunksGo.induct pad with
  | case1 => intro h; simp at h
  | case2 b1 => intro _; simp [ecbChunksGo, lastPadOk, List.getD]
  | case3 b1 b2 => intro _; simp [ecbChunksGo, lastPadOk, List.getD]
  | case4 b1 b2 b3 => intro _; simp [ecbChunksGo, lastPadOk, List.getD]
  | case5 b1 b2 b3 b4 rest ih =>
    intro h
    have hrest : rest.length % 4 ≠ 0 := by
      simp [List.length_cons] at h
      omega
    have hne : rest ≠ [] := by
      intro hcon
      subst hcon
      simp at hrest
    obtain ⟨gc, gcs, hgo⟩ : ∃ gc gcs, ecbChunksGo pad rest = gc :: gcs := by
      cases hgo : ecbChunksGo pad rest with
      | nil => exact absurd hgo (ecbChunksGo_ne_nil pad rest hne)
      | cons a l => exact ⟨a, l, rfl⟩
    show lastPadOk ([b1, b2, b3, b4] :: ecbChunksGo pad rest)
    rw [hgo]
    show lastPadOk (gc :: gcs)
    rw [← hgo]
    exact ih hrest

/-- The buffer list prepared by `encrypt_ecb` is nonempty, consists of
4-byte buffers of bytes, ends with a valid pad count, and reassembles to
the original stream. -/
lemma ecbChunks_spec (pad : Nat → Nat) (hpad : ∀ i, pad i < 256)
    (stream : List Nat) (hs : ∀ b ∈ stream, b < 256) :
    ecbChunks pad stream ≠ [] ∧
      (∀ c ∈ ecbChunks pad stream, c.length = 4 ∧ ∀ b ∈ c, b < 256) ∧
      lastPadOk (ecbChunks pad stream) ∧
      unpadLast (ecbChunks pad stream) = stream := by
  unfold ecbChunks
  split_ifs with h4
  · refine ⟨by simp, ?_, ?_, ?_⟩
    · intro c hc
      rcases List.mem_append.mp hc with hc | hc
      · exact ecbChunksGo_valid pad hpad stream hs c hc
      · simp at hc
        subst hc
        refine ⟨rfl, ?_⟩
        intro b hb
        have h0 := hpad 0
        have h1 := hpad 1
        have h2 := hpad 2
        simp at hb
        rcases hb with rfl | rfl | rfl | rfl <;> omega
    · exact lastPadOk_concat _ _ (by simp [List.getD])
    · rw [unpadLast_concat, ecbChunksGo_join pad stream h4]
      simp [List.getD]
  · refine ⟨ecbChunksGo_ne_nil pad stream ?_, ecbChunksGo_valid pad hpad stream hs,
      ecbChunksGo_lastPad pad stream h4, ecbChunksGo_unpad pad stream h4⟩
    intro hcon
    subst hcon
    simp at h4

lemma take8_of_append (A B : List Nat) (hA : A.length = 8) :
    (A ++ B).take 8 = A := by
  rw [← hA, List.take_left]

lemma drop8_of_append (A B : List Nat) (hA : A.length = 8) :
    (A ++ B).drop 8 = B := by
  rw [← hA, List.drop_left]

lemma lastPadOk_tail (c : List Nat) (cs : List (List Nat))
    (h : lastPadOk (c :: cs)) : lastPadOk cs := by
  cases cs with
  | nil => trivial
  | cons b t => exact h

/-- One buffer through `encrypt_block_to_file`: encryption succeeds, the
ciphertext is 16 bytes, and `decrypt_block` on its two deserialized words
recovers the buffer's block value. -/
lemma encrypt_chunk_bytes_spec (p g x r : Nat) (hkp : matchedKeyPair p g x)
    (hr1 : 1 ≤ r) (hr2 : r < p) (chunk : List Nat) (hlen : chunk.length = 4)
    (hbytes : ∀ b ∈ chunk, b < 256) :
    ∃ ct, encrypt_chunk_bytes ⟨p, g, mod_exp g x p⟩ r chunk = some ct ∧
      ct.length = 16 ∧
      decrypt_block (fromBeBytes (ct.take 8)) (fromBeBytes (ct.drop 8))
        ⟨p, g, x⟩ = some (fromBeBytes chunk) := by
  obtain ⟨hp, hpB, hp64, hg, hx1, hx2⟩ := hkp
  have hp0 : 0 < p := by
    unfold blockMax at hpB
    omega
  have hblt : fromBeBytes chunk < 2 ^ 32 := by
    have h := fromBeBytes_lt chunk hbytes
    rw [hlen] at h
    calc fromBeBytes chunk < 256 ^ 4 := h
      _ = 2 ^ 32 := by norm_num
  have hb : fromBeBytes chunk ≤ blockMax := by
    unfold blockMax
    omega
  have henc : encrypt_block_det (fromBeBytes chunk) ⟨p, g, mod_exp g x p⟩ r =
      some (mod_exp g r p,
        fromBeBytes chunk * mod_exp (mod_exp g x p) r p % p) := by
    rw [encrypt_block_det_eval, if_pos ⟨hpB, by omega, hr2⟩]
  have hrt := crypt_block_roundtrip p g x (fromBeBytes chunk) r
    ⟨hp, hpB, hp64, hg, hx1, hx2⟩ hb hr1 hr2
  rw [henc] at hrt
  have hdec : decrypt_block (mod_exp g r p)
      (fromBeBytes chunk * mod_exp (mod_exp g x p) r p % p) ⟨p, g, x⟩ =
      some (fromBeBytes chunk) := hrt
  have hc1lt : mod_exp g r p < 256 ^ 8 := by
    have h1 := mod_exp_lt g r p hp0
    have : (256 : Nat) ^ 8 = 2 ^ 64 := by norm_num
    omega
  have hc2lt : fromBeBytes chunk * mod_exp (mod_exp g x p) r p % p < 256 ^ 8 := by
    have h1 := Nat.mod_lt (fromBeBytes chunk * mod_exp (mod_exp g x p) r p) hp0
    have : (256 : Nat) ^ 8 = 2 ^ 64 := by norm_num
    omega
  refine ⟨toBeBytes 8 (mod_exp g r p) ++
    toBeBytes 8 (fromBeBytes chunk * mod_exp (mod_exp g x p) r p % p),
    ?_, ?_, ?_⟩
  · unfold encrypt_chunk_bytes
    rw [henc]
  · simp [toBeBytes_length]
  · rw [take8_of_append _ _ (toBeBytes_length 8 _),
      drop8_of_append _ _ (toBeBytes_length 8 _),
      fromBeBytes_toBeBytes 8 _ hc1lt, fromBeBytes_toBeBytes 8 _ hc2lt]
    exact hdec

/-- The ECB encryption loop over prepared buffers: it succeeds, produces
16 bytes per buffer, and (for at least one buffer with a valid final pad)
`decrypt_ecb` inverts it to the reassembled plaintext. -/
lemma encryptChunks_decrypt (p g x : Nat) (hkp : matchedKeyPair p g x) :
    ∀ chunks (rs : Nat → Nat), (∀ i, 1 ≤ rs i ∧ rs i < p) →
      (∀ c ∈ chunks, c.length = 4 ∧ ∀ b ∈ c, b < 256) →
      lastPadOk chunks →
      ∃ ct, encryptChunks ⟨p, g, mod_exp g x p⟩ rs chunks = some ct ∧
        ct.length = 16 * chunks.length ∧
        (chunks ≠ [] → decrypt_ecb ⟨p, g, x⟩ ct = some (unpadLast chunks)) := by
  intro chunks
  induction chunks with
  | nil =>
    intro rs _ _ _
    exact ⟨[], rfl, by simp, fun h => absurd rfl h⟩
  | cons c cs ih =>
    intro rs hrs hvalid hpadok
    obtain ⟨hclen, hcbytes⟩ := hvalid c (by simp)
    obtain ⟨ctc, hce, hctclen, hdecc⟩ := encrypt_chunk_bytes_spec p g x (rs 0)
      hkp (hrs 0).1 (hrs 0).2 c hclen hcbytes
    obtain ⟨cts, hcse, hctslen, hdecs⟩ := ih (fun i => rs (i + 1))
      (fun i => hrs (i + 1)) (fun c' hc' => hvalid c' (by simp [hc']))
      (lastPadOk_tail c cs hpadok)
    have hcback : toBeBytes 4 (fromBeBytes c) = c := by
      have h := toBeBytes_fromBeBytes c hcbytes
      rw [hclen] at h
      exact h
    refine ⟨ctc ++ cts, ?_, ?_, ?_⟩
    · simp only [encryptChunks, hce, hcse]
    · simp [hctclen, hctslen, List.length_append, List.length_cons]
      ring
    · intro _
      cases cs with
      | nil =>
        have hcts0 : cts = [] := List.length_eq_zero.mp (by simpa using hctslen)
        subst hcts0
        rw [List.append_nil]
        rw [decrypt_ecb]
        rw [dif_neg (by omega : ¬ ctc.length < 16)]
        have hdt : (ctc.drop 8).take 8 = ctc.drop 8 :=
          List.take_of_length_le (by simp [hctclen])
        rw [hdt]
        simp only [hdecc]
        have hpc : c.getD 3 0 ≤ 4 := hpadok
        rw [if_pos hctclen, hcback, if_pos hpc]
        rfl
      | cons c' cs' =>
        have hlcts : cts.length = 16 * (cs'.length + 1) := by
          simpa using hctslen
        rw [decrypt_ecb]
        rw [dif_neg (by simp [hctclen, hlcts] :
          ¬ (ctc ++ cts).length < 16)]
        have htake : (ctc ++ cts).take 8 = ctc.take 8 :=
          List.take_append_of_le_length (by omega)
        have hdrop8 : (ctc ++ cts).drop 8 = ctc.drop 8 ++ cts :=
          List.drop_append_of_le_length (by omega)
        have hdt : (ctc.drop 8 ++ cts).take 8 = ctc.drop 8 := by
          rw [List.take_append_of_le_length (by simp [hctclen])]
          exact List.take_of_length_le (by simp [hctclen])
        rw [htake, hdrop8, hdt]
        simp only [hdecc]
        rw [if_neg (by simp [hctclen, hlcts] :
          ¬ (ctc ++ cts).length = 16)]
        have hdrop16 : (ctc ++ cts).drop 16 = cts := by
          rw [List.drop_append_of_le_length (by omega),
            show (16 : Nat) = ctc.length from hctclen.symm, List.drop_length,
            List.nil_append]
        rw [hdrop16, hdecs (by simp)]
        simp only [hcback]
        rfl

/-- C6: for every byte stream (zero-length and exact-multiple lengths
included), every matched key pair, and every random source (the ephemeral
exponent stream `rs` drawn from `gen_range(1..p)` and the pad-fill byte
stream `pad`), `decrypt_ecb` of `encrypt_ecb` of the stream yields
exactly the original stream. -/
theorem ecb_roundtrip (p g x : Nat) (hkp : matchedKeyPair p g x)
    (stream : List Nat) (hstream : ∀ b ∈ stream, b < 256)
    (rs pad : Nat → Nat) (hrs : ∀ i, 1 ≤ rs i ∧ rs i < p)
    (hpad : ∀ i, pad i < 256) :
    (encrypt_ecb ⟨p, g, mod_exp g x p⟩ rs pad stream).bind
      (decrypt_ecb ⟨p, g, x⟩) = some stream := by
  obtain ⟨hne, hvalid, hpadok, hunpad⟩ := ecbChunks_spec pad hpad stream hstream
  obtain ⟨ct, hct, _, hdec⟩ := encryptChunks_decrypt p g x hkp
    (ecbChunks pad stream) rs hrs hvalid hpadok
  unfold encrypt_ecb
  rw [hct]
  show decrypt_ecb ⟨p, g, x⟩ ct = some stream
  rw [hdec hne, hunpad]

theorem ecb_roundtrip_witness :
    (encrypt_ecb ⟨4464836609, 3, mod_exp 3 1 4464836609⟩ (fun _ => 2)
        (fun _ => 0) [202, 254]).bind
      (decrypt_ecb ⟨4464836609, 3, 1⟩) = some [202, 254] :=
  ecb_roundtrip 4464836609 3 1 matchedKeyPair_concrete [202, 254]
    (by intro b hb; simp at hb; rcases hb with rfl | rfl <;> norm_num)
    (fun _ => 2) (fun _ => 0) (fun i => ⟨by norm_num, by norm_num⟩)
    (fun i => by norm_num)
